import Mathlib

/-!
# Verification of the AllianceConnect smart-sync layer

This file embeds the "smart sync" subsystem of the repository:

* the Merge Engine (`mergeDatasets`) and Sync Orchestrator, which are
  documented in `IGPRentalSystem/FIREBASE_OPTIMIZATION_GUIDE.md` (the
  implementing file `rental-firebase-service.js` is not part of the
  reviewed sources, so these are modelled from the spec's algorithm);
* the Firestore data-access methods of `DutyFirebaseService`
  (`getLogs`, `getDutyLogsSince`, `addOfficer`), translated directly
  from the JavaScript source, with Firestore query semantics made
  explicit (a `where`/`orderBy` clause on a field only matches
  documents that actually carry that field).

Machine state (the Firestore collection, the local cache, the sync
metadata) is passed explicitly; fallible calls are modelled by an
explicit success flag standing for the `try`/`catch` boundary.
-/

namespace SmartSync

/-- A synchronised record: a stable identifier, an optional
`updatedAt` instant (milliseconds since the epoch), and an open bag of
further attributes that merge carries along untouched. -/
structure Record where
  id : String
  updatedAt : Option Nat
  fields : List (String × String)
deriving DecidableEq, Repr

/-- Modelled from the spec: timestamp precedence used by the Merge
Engine. `tsLater r l` holds when instant `r` is strictly later than
instant `l`; a missing `updatedAt` is the earliest possible instant,
superseded by any timestamped counterpart. -/
def tsLater : Option Nat → Option Nat → Bool
  | some a, some b => decide (b < a)
  | some _, none => true
  | none, _ => false

/-- Identifiers of a record list, in order. -/
def ids (m : List Record) : List String :=
  m.map Record.id

/-- First record with the given identifier. -/
def lookupId : List Record → String → Option Record
  | [], _ => none
  | x :: rest, i => if x.id = i then some x else lookupId rest i

/-- Replace every record sharing `r`'s identifier by `r`, in place. -/
def replaceId (m : List Record) (r : Record) : List Record :=
  m.map (fun l => if l.id = r.id then r else l)

/-- Modelled from the spec: one step of "initialize the result as a
copy of `local`, indexed by identifier" — insert a record into the
identifier-indexed accumulator, a later record overriding an earlier
one with the same identifier. -/
def upsertLocal (m : List Record) (r : Record) : List Record :=
  match lookupId m r.id with
  | some _ => replaceId m r
  | none => m ++ [r]

/-- Modelled from the spec: index a local record list by identifier. -/
def indexById (rs : List Record) : List Record :=
  rs.foldl upsertLocal []

/-- Modelled from the spec: the Merge Engine's treatment of one remote
record `r` (guide, "Smart Merge Logic"): if no record in the
accumulator shares `r`'s identifier, insert `r`; otherwise replace the
existing record exactly when `r.updatedAt` is strictly later. -/
def mergeStep (m : List Record) (r : Record) : List Record :=
  match lookupId m r.id with
  | none => m ++ [r]
  | some l => if tsLater r.updatedAt l.updatedAt then replaceId m r else m

/-- Modelled from the spec: `mergeDatasets` of
`rental-firebase-service.js` (absent from the reviewed sources; the
guide gives its algorithm): start from the local data indexed by
identifier, then fold every remote record in with timestamp
precedence, local winning ties. -/
def mergeDatasets (localRecs remote : List Record) : List Record :=
  remote.foldl mergeStep (indexById localRecs)

/-! ## Order facts about timestamp precedence -/

theorem tsLater_self (a : Option Nat) : tsLater a a = false := by
  cases a <;> simp [tsLater]

theorem tsLater_asymm {a b : Option Nat} (h : tsLater a b = true) :
    tsLater b a = false := by
  cases a <;> cases b <;> (simp_all [tsLater]; try omega)

theorem tsLater_trans_false {a b c : Option Nat}
    (hab : tsLater a b = false) (hbc : tsLater b c = false) :
    tsLater a c = false := by
  cases a <;> cases b <;> cases c <;> (simp_all [tsLater]; try omega)

/-! ## Lookup and identifier lemmas -/

theorem lookupId_append_right {m : List Record} {i : String}
    (h : lookupId m i = none) (r : Record) :
    lookupId (m ++ [r]) i = if r.id = i then some r else none := by
  induction m with
  | nil => simp [lookupId]
  | cons x rest ih =>
    by_cases hx : x.id = i
    · simp [lookupId, hx] at h
    · simp only [lookupId, hx, if_false, List.cons_append] at h ⊢
      exact ih h

theorem lookupId_isSome_iff {m : List Record} {i : String} :
    (lookupId m i).isSome = true ↔ i ∈ ids m := by
  induction m with
  | nil => simp [lookupId, ids]
  | cons x rest ih =>
    by_cases hx : x.id = i
    · simp [lookupId, hx, ids]
    · simp [lookupId, hx, ids, Ne.symm hx] at ih ⊢
      exact ih

theorem lookupId_eq_none_iff {m : List Record} {i : String} :
    lookupId m i = none ↔ i ∉ ids m := by
  rw [← lookupId_isSome_iff]
  cases lookupId m i <;> simp

theorem lookupId_mem {m : List Record} {i : String} {r : Record}
    (h : lookupId m i = some r) : r ∈ m ∧ r.id = i := by
  induction m with
  | nil => simp [lookupId] at h
  | cons x rest ih =>
    by_cases hx : x.id = i
    · simp [lookupId, hx] at h
      exact ⟨by simp [← h], by rw [← h]; exact hx⟩
    · simp only [lookupId, hx, if_false] at h
      obtain ⟨h1, h2⟩ := ih h
      exact ⟨List.mem_cons_of_mem _ h1, h2⟩

theorem lookupId_of_mem_nodup {m : List Record} {r : Record}
    (hnd : (ids m).Nodup) (hmem : r ∈ m) : lookupId m r.id = some r := by
  induction m with
  | nil => simp at hmem
  | cons x rest ih =>
    rcases List.mem_cons.mp hmem with h | h
    · subst h; simp [lookupId]
    · have hx : x.id ≠ r.id := by
        intro he
        have : r.id ∈ ids rest := List.mem_map_of_mem Record.id h
        rw [← he] at this
        exact (List.nodup_cons.mp hnd).1 this
      simp only [lookupId, hx, if_false]
      exact ih (List.nodup_cons.mp hnd).2 h

theorem ids_replaceId (m : List Record) (r : Record) :
    ids (replaceId m r) = ids m := by
  induction m with
  | nil => rfl
  | cons x rest ih =>
    by_cases hx : x.id = r.id
    · simp [replaceId, ids, hx] at ih ⊢
      exact ih
    · simp [replaceId, ids, hx] at ih ⊢
      exact ih

theorem lookupId_replaceId (m : List Record) (r : Record) (i : String) :
    lookupId (replaceId m r) i =
      if r.id = i then (lookupId m i).map (fun _ => r) else lookupId m i := by
  induction m with
  | nil => simp [replaceId, lookupId]
  | cons x rest ih =>
    by_cases hx : x.id = r.id
    · by_cases hi : r.id = i
      · simp [replaceId, lookupId, hx, hi] at ih ⊢
      · have hxi : x.id ≠ i := by rw [hx]; exact hi
        simp [replaceId, lookupId, hx, hi, hxi] at ih ⊢
        exact ih
    · by_cases hxi : x.id = i
      · have hri : i ≠ r.id := by rw [← hxi]; exact fun he => hx he
        simp [replaceId, lookupId, hx, hxi, hri, Ne.symm hri]
      · simp [replaceId, lookupId, hx, hxi] at ih ⊢
        exact ih

/-! ## Effect of one merge step on identifiers and lookup -/

theorem ids_append (m : List Record) (r : Record) :
    ids (m ++ [r]) = ids m ++ [r.id] := by
  simp [ids]

theorem mem_ids_mergeStep {m : List Record} {r : Record} {i : String} :
    i ∈ ids (mergeStep m r) ↔ i ∈ ids m ∨ i = r.id := by
  unfold mergeStep
  cases hl : lookupId m r.id with
  | none => simp [ids_append]
  | some l =>
    have hrid : r.id ∈ ids m := by
      rw [← lookupId_isSome_iff, hl]; rfl
    by_cases ht : tsLater r.updatedAt l.updatedAt
    · simp only [ht, if_true, ids_replaceId]
      constructor
      · exact Or.inl
      · rintro (h | h)
        · exact h
        · rw [h]; exact hrid
    · simp only [ht, if_false]
      constructor
      · exact Or.inl
      · rintro (h | h)
        · exact h
        · rw [h]; exact hrid

theorem nodup_ids_mergeStep {m : List Record} (r : Record)
    (h : (ids m).Nodup) : (ids (mergeStep m r)).Nodup := by
  unfold mergeStep
  cases hl : lookupId m r.id with
  | none =>
    rw [ids_append]
    have hnm : r.id ∉ ids m := lookupId_eq_none_iff.mp hl
    simp [List.nodup_append, h, hnm]
  | some l =>
    by_cases ht : tsLater r.updatedAt l.updatedAt
    · simpa [ht, ids_replaceId] using h
    · simpa [ht] using h

theorem lookupId_append_left {m : List Record} {i : String} {w : Record}
    (h : lookupId m i = some w) (r : Record) :
    lookupId (m ++ [r]) i = some w := by
  induction m with
  | nil => simp [lookupId] at h
  | cons x rest ih =>
    by_cases hx : x.id = i
    · simp_all [lookupId]
    · simp only [lookupId, hx, if_false, List.cons_append] at h ⊢
      exact ih h

theorem lookupId_mergeStep_none {m : List Record} {r : Record}
    (h : lookupId m r.id = none) :
    lookupId (mergeStep m r) r.id = some r := by
  unfold mergeStep
  rw [h, lookupId_append_right h]
  simp

theorem lookupId_mergeStep_some {m : List Record} {r l : Record}
    (h : lookupId m r.id = some l) :
    lookupId (mergeStep m r) r.id =
      some (if tsLater r.updatedAt l.updatedAt then r else l) := by
  unfold mergeStep
  rw [h]
  by_cases ht : tsLater r.updatedAt l.updatedAt
  · simp only [ht, if_true]
    rw [lookupId_replaceId, if_pos rfl, h]
    rfl
  · simp [ht, h]

theorem lookupId_mergeStep_other {i : String} {r : Record}
    (hne : i ≠ r.id) (m : List Record) :
    lookupId (mergeStep m r) i = lookupId m i := by
  unfold mergeStep
  cases hl : lookupId m r.id with
  | none =>
    cases hm : lookupId m i with
    | none =>
      rw [lookupId_append_right hm]
      exact if_neg (fun h => hne h.symm)
    | some w => rw [lookupId_append_left hm]
  | some l =>
    by_cases ht : tsLater r.updatedAt l.updatedAt
    · simp only [ht, if_true]
      rw [lookupId_replaceId, if_neg (fun h => hne h.symm)]
    · simp [ht]

/-! ## Fold-level invariants of the merge -/

theorem mem_ids_foldl_mergeStep (bs : List Record) :
    ∀ (m : List Record) (i : String),
      i ∈ ids (bs.foldl mergeStep m) ↔ i ∈ ids m ∨ i ∈ ids bs := by
  induction bs with
  | nil => intro m i; simp [ids]
  | cons b rest ih =>
    intro m i
    rw [List.foldl_cons, ih, mem_ids_mergeStep]
    simp only [ids, List.map_cons, List.mem_cons]
    tauto

theorem nodup_ids_foldl_mergeStep (bs : List Record) :
    ∀ (m : List Record), (ids m).Nodup → (ids (bs.foldl mergeStep m)).Nodup := by
  induction bs with
  | nil => intro m h; exact h
  | cons b rest ih =>
    intro m h
    exact ih _ (nodup_ids_mergeStep b h)

theorem lookupId_foldl_not_mem {bs : List Record} {i : String}
    (h : i ∉ ids bs) (m : List Record) :
    lookupId (bs.foldl mergeStep m) i = lookupId m i := by
  induction bs generalizing m with
  | nil => rfl
  | cons b rest ih =>
    have hb : i ≠ b.id := by
      intro he; exact h (by rw [he]; simp [ids])
    have hr : i ∉ ids rest := fun hm => h (by simp [ids] at hm ⊢; exact Or.inr hm)
    rw [List.foldl_cons, ih hr, lookupId_mergeStep_other hb]

theorem lookupId_foldl_mono (bs : List Record) :
    ∀ {m : List Record} {i : String} {w0 : Record},
      lookupId m i = some w0 →
      ∃ w, lookupId (bs.foldl mergeStep m) i = some w ∧
        tsLater w0.updatedAt w.updatedAt = false := by
  induction bs with
  | nil =>
    intro m i w0 h
    exact ⟨w0, h, tsLater_self _⟩
  | cons b rest ih =>
    intro m i w0 h
    rw [List.foldl_cons]
    by_cases hb : i = b.id
    · subst hb
      cases hq : lookupId (mergeStep m b) b.id with
      | none =>
        rw [lookupId_mergeStep_some h] at hq
        simp at hq
      | some w1 =>
        have hval : (if tsLater b.updatedAt w0.updatedAt then b else w0) = w1 := by
          have := hq
          rw [lookupId_mergeStep_some h] at this
          exact Option.some_inj.mp this
        obtain ⟨w, hw, hts⟩ := ih hq
        by_cases ht : tsLater b.updatedAt w0.updatedAt
        · rw [if_pos ht] at hval
          exact ⟨w, hw, tsLater_trans_false (tsLater_asymm ht) (hval.symm ▸ hts)⟩
        · rw [if_neg ht] at hval
          exact ⟨w, hw, hval.symm ▸ hts⟩
    · exact ih (by rw [lookupId_mergeStep_other hb, h])

theorem lookupId_foldl_wins (bs : List Record) :
    ∀ {m : List Record} {r : Record}, r ∈ bs →
      ∃ w, lookupId (bs.foldl mergeStep m) r.id = some w ∧
        tsLater r.updatedAt w.updatedAt = false := by
  induction bs with
  | nil => intro m r h; simp at h
  | cons b rest ih =>
    intro m r h
    rw [List.foldl_cons]
    rcases List.mem_cons.mp h with h | h
    · subst h
      cases hl : lookupId m r.id with
      | none =>
        exact lookupId_foldl_mono rest (lookupId_mergeStep_none hl)
      | some l =>
        have hsame := lookupId_mergeStep_some hl
        by_cases ht : tsLater r.updatedAt l.updatedAt
        · rw [if_pos ht] at hsame
          exact lookupId_foldl_mono rest hsame
        · rw [if_neg ht] at hsame
          obtain ⟨w, hw, hts⟩ := lookupId_foldl_mono rest hsame
          exact ⟨w, hw, tsLater_trans_false (Bool.eq_false_iff.mpr ht) hts⟩
    · exact ih h

/-! ## Indexing the local data by identifier -/

theorem mem_ids_upsertLocal {m : List Record} {r : Record} {i : String} :
    i ∈ ids (upsertLocal m r) ↔ i ∈ ids m ∨ i = r.id := by
  unfold upsertLocal
  cases hl : lookupId m r.id with
  | none => simp [ids_append]
  | some l =>
    have hrid : r.id ∈ ids m := by
      rw [← lookupId_isSome_iff, hl]; rfl
    rw [ids_replaceId]
    constructor
    · exact Or.inl
    · rintro (h | h)
      · exact h
      · rw [h]; exact hrid

theorem nodup_ids_upsertLocal {m : List Record} (r : Record)
    (h : (ids m).Nodup) : (ids (upsertLocal m r)).Nodup := by
  unfold upsertLocal
  cases hl : lookupId m r.id with
  | none =>
    rw [ids_append]
    have hnm : r.id ∉ ids m := lookupId_eq_none_iff.mp hl
    simp [List.nodup_append, h, hnm]
  | some l => rw [ids_replaceId]; exact h

theorem nodup_ids_foldl_upsertLocal (rs : List Record) :
    ∀ (m : List Record), (ids m).Nodup → (ids (rs.foldl upsertLocal m)).Nodup := by
  induction rs with
  | nil => intro m h; exact h
  | cons x rest ih =>
    intro m h
    exact ih _ (nodup_ids_upsertLocal x h)

theorem mem_ids_foldl_upsertLocal (rs : List Record) :
    ∀ (m : List Record) (i : String),
      i ∈ ids (rs.foldl upsertLocal m) ↔ i ∈ ids m ∨ i ∈ ids rs := by
  induction rs with
  | nil => intro m i; simp [ids]
  | cons x rest ih =>
    intro m i
    rw [List.foldl_cons, ih, mem_ids_upsertLocal]
    simp only [ids, List.map_cons, List.mem_cons]
    tauto

theorem nodup_ids_indexById (rs : List Record) :
    (ids (indexById rs)).Nodup := by
  unfold indexById
  exact nodup_ids_foldl_upsertLocal rs [] (by simp [ids])

theorem mem_ids_indexById (rs : List Record) (i : String) :
    i ∈ ids (indexById rs) ↔ i ∈ ids rs := by
  unfold indexById
  rw [mem_ids_foldl_upsertLocal]
  simp [ids]

theorem foldl_upsertLocal_disjoint (rs : List Record) :
    ∀ (acc : List Record), (∀ x ∈ rs, x.id ∉ ids acc) → (ids rs).Nodup →
      rs.foldl upsertLocal acc = acc ++ rs := by
  induction rs with
  | nil => intro acc _ _; simp
  | cons x rest ih =>
    intro acc hdisj hnd
    have hx : lookupId acc x.id = none :=
      lookupId_eq_none_iff.mpr (hdisj x (List.mem_cons_self x rest))
    rw [List.foldl_cons]
    have hstep : upsertLocal acc x = acc ++ [x] := by
      unfold upsertLocal; rw [hx]
    rw [hstep]
    have hnd' : (∀ y ∈ rest, y.id ≠ x.id) ∧ (List.map Record.id rest).Nodup := by
      simpa [ids] using hnd
    have hrest : ∀ y ∈ rest, y.id ∉ ids (acc ++ [x]) := by
      intro y hy
      rw [ids_append]
      intro hmem
      rcases List.mem_append.mp hmem with h | h
      · exact hdisj y (List.mem_cons_of_mem _ hy) h
      · have hyx : y.id = x.id := by simpa using h
        exact hnd'.1 y hy hyx
    rw [ih (acc ++ [x]) hrest (by simpa [ids] using hnd'.2)]
    simp

theorem indexById_eq_self {m : List Record} (h : (ids m).Nodup) :
    indexById m = m := by
  unfold indexById
  rw [foldl_upsertLocal_disjoint m [] (by simp [ids]) h]
  simp

theorem foldl_mergeStep_id {bs m : List Record}
    (h : ∀ b ∈ bs, ∃ w, lookupId m b.id = some w ∧
      tsLater b.updatedAt w.updatedAt = false) :
    bs.foldl mergeStep m = m := by
  induction bs with
  | nil => rfl
  | cons b rest ih =>
    obtain ⟨w, hw, hts⟩ := h b (List.mem_cons_self b rest)
    have hstep : mergeStep m b = m := by
      unfold mergeStep
      rw [hw]
      simp [hts]
    rw [List.foldl_cons, hstep]
    exact ih (fun x hx => h x (List.mem_cons_of_mem _ hx))

/-- For identifier-disjoint-free inputs with unique identifiers on each
side, the merged record at an identifier present on both sides is the
timestamp winner, local on ties. -/
theorem lookupId_mergeDatasets_both {A B : List Record} {l r : Record}
    (hA : (ids A).Nodup) (hB : (ids B).Nodup)
    (hl : l ∈ A) (hr : r ∈ B) (hid : r.id = l.id) :
    lookupId (mergeDatasets A B) l.id =
      some (if tsLater r.updatedAt l.updatedAt then r else l) := by
  obtain ⟨B1, B2, rfl⟩ := List.append_of_mem hr
  have hnod : (ids B1 ++ r.id :: ids B2).Nodup := by
    simpa [ids] using hB
  rw [List.nodup_append] at hnod
  have hrB2 : r.id ∉ ids B2 := (List.nodup_cons.mp hnod.2.1).1
  have hrB1 : r.id ∉ ids B1 := by
    intro hmem
    exact hnod.2.2 hmem (List.mem_cons_self _ _)
  show lookupId ((B1 ++ r :: B2).foldl mergeStep (indexById A)) l.id = _
  rw [indexById_eq_self hA, List.foldl_append, List.foldl_cons]
  rw [lookupId_foldl_not_mem (by rw [← hid]; exact hrB2)]
  have hbase : lookupId (B1.foldl mergeStep A) r.id = some l := by
    rw [lookupId_foldl_not_mem hrB1, hid]
    exact lookupId_of_mem_nodup hA hl
  rw [← hid]
  exact lookupId_mergeStep_some hbase

/-- Sample records used to instantiate the merge theorems. -/
def rLocal : Record := { id := "1", updatedAt := some 10, fields := [("name", "local")] }

def rRemote : Record := { id := "1", updatedAt := some 20, fields := [("name", "remote")] }

def rNoTs : Record := { id := "3", updatedAt := none, fields := [("name", "untimed")] }

def rWithTs : Record := { id := "3", updatedAt := some 5, fields := [("name", "timed")] }

/-- C1: for every pair of record lists, the merged set has pairwise
distinct identifiers, and its identifier set is exactly the union of
the identifiers of the two inputs — one record per identifier. -/
theorem merged_ids_nodup_and_union (A B : List Record) :
    (ids (mergeDatasets A B)).Nodup ∧
      (∀ i, i ∈ ids (mergeDatasets A B) ↔ i ∈ ids A ∨ i ∈ ids B) := by
  constructor
  · exact nodup_ids_foldl_mergeStep B _ (nodup_ids_indexById A)
  · intro i
    show i ∈ ids (B.foldl mergeStep (indexById A)) ↔ _
    rw [mem_ids_foldl_mergeStep, mem_ids_indexById]

/-- Witness for C1 on concrete inputs. -/
theorem merged_ids_nodup_and_union_witness :
    (ids (mergeDatasets [rLocal] [rRemote, rNoTs])).Nodup ∧
      (∀ i, i ∈ ids (mergeDatasets [rLocal] [rRemote, rNoTs]) ↔
        i ∈ ids [rLocal] ∨ i ∈ ids [rRemote, rNoTs]) :=
  merged_ids_nodup_and_union [rLocal] [rRemote, rNoTs]

/-- C2: for an identifier present on both sides, with both records
timestamped, the merged set contains the remote record exactly when
its timestamp is strictly later, and otherwise (ties included) the
local record unchanged. -/
theorem merge_timestamp_precedence {A B : List Record} {l r : Record}
    (hA : (ids A).Nodup) (hB : (ids B).Nodup)
    (hl : l ∈ A) (hr : r ∈ B) (hid : r.id = l.id)
    {tl tr : Nat} (htl : l.updatedAt = some tl) (htr : r.updatedAt = some tr) :
    (tl < tr → r ∈ mergeDatasets A B ∧ (l = r ∨ l ∉ mergeDatasets A B)) ∧
    (tr ≤ tl → l ∈ mergeDatasets A B ∧ (r = l ∨ r ∉ mergeDatasets A B)) := by
  have hnd : (ids (mergeDatasets A B)).Nodup :=
    nodup_ids_foldl_mergeStep B _ (nodup_ids_indexById A)
  have hkey := lookupId_mergeDatasets_both hA hB hl hr hid
  rw [htl, htr] at hkey
  constructor
  · intro hlt
    have hts : tsLater (some tr) (some tl) = true := by
      simp [tsLater]; exact hlt
    rw [if_pos hts] at hkey
    refine ⟨(lookupId_mem hkey).1, ?_⟩
    by_cases hmem : l ∈ mergeDatasets A B
    · left
      have := lookupId_of_mem_nodup hnd hmem
      rw [this] at hkey
      exact Option.some_inj.mp hkey.symm |>.symm
    · right; exact hmem
  · intro hle
    have hts : tsLater (some tr) (some tl) = false := by
      simp [tsLater]; omega
    rw [if_neg (by rw [hts]; exact Bool.false_ne_true)] at hkey
    refine ⟨(lookupId_mem hkey).1, ?_⟩
    by_cases hmem : r ∈ mergeDatasets A B
    · left
      have := lookupId_of_mem_nodup hnd hmem
      rw [hid] at this
      rw [this] at hkey
      exact Option.some_inj.mp hkey
    · right; exact hmem

/-- Witness for C2: with local timestamp 10 and remote timestamp 20 the
remote record wins. -/
theorem merge_timestamp_precedence_witness :
    rRemote ∈ mergeDatasets [rLocal] [rRemote] ∧
      (rLocal = rRemote ∨ rLocal ∉ mergeDatasets [rLocal] [rRemote]) :=
  (@merge_timestamp_precedence [rLocal] [rRemote] rLocal rRemote
    (by decide) (by decide) (by simp) (by simp) (by decide)
    10 20 (by decide) (by decide)).1 (by omega)

/-- C3: the merge is idempotent in its remote argument:
`merge(merge(A, B), B) = merge(A, B)` for all record lists. -/
theorem merge_idempotent (A B : List Record) :
    mergeDatasets (mergeDatasets A B) B = mergeDatasets A B := by
  have hnd : (ids (mergeDatasets A B)).Nodup :=
    nodup_ids_foldl_mergeStep B _ (nodup_ids_indexById A)
  show B.foldl mergeStep (indexById (mergeDatasets A B)) = mergeDatasets A B
  rw [indexById_eq_self hnd]
  exact foldl_mergeStep_id (fun b hb => lookupId_foldl_wins B hb)

/-- C4: a record missing `updatedAt` is always superseded by a
same-identifier record carrying one, in both directions: a timestamped
remote record replaces an untimed local one, and an untimed remote
record never replaces a timestamped local one. -/
theorem merge_missing_timestamp {A B : List Record} {l r : Record}
    (hA : (ids A).Nodup) (hB : (ids B).Nodup)
    (hl : l ∈ A) (hr : r ∈ B) (hid : r.id = l.id) :
    (l.updatedAt = none → (∃ t, r.updatedAt = some t) →
      lookupId (mergeDatasets A B) l.id = some r ∧ r ∈ mergeDatasets A B) ∧
    (r.updatedAt = none → (∃ t, l.updatedAt = some t) →
      lookupId (mergeDatasets A B) l.id = some l ∧ l ∈ mergeDatasets A B) := by
  have hkey := lookupId_mergeDatasets_both hA hB hl hr hid
  constructor
  · rintro hln ⟨t, hrt⟩
    rw [hln, hrt] at hkey
    rw [if_pos (by simp [tsLater])] at hkey
    exact ⟨hkey, (lookupId_mem hkey).1⟩
  · rintro hrn ⟨t, hlt⟩
    rw [hrn, hlt] at hkey
    rw [if_neg (by simp [tsLater])] at hkey
    exact ⟨hkey, (lookupId_mem hkey).1⟩

/-- Witness for C4: a timestamped remote record beats an untimed local
record with the same identifier. -/
theorem merge_missing_timestamp_witness :
    lookupId (mergeDatasets [rNoTs] [rWithTs]) rNoTs.id = some rWithTs ∧
      rWithTs ∈ mergeDatasets [rNoTs] [rWithTs] :=
  (@merge_missing_timestamp [rNoTs] [rWithTs] rNoTs rWithTs
    (by decide) (by decide) (by simp) (by simp) (by decide)).1
    rfl ⟨5, rfl⟩

/-! ## Sync Orchestrator (modelled from the spec) -/

/-- Modelled from the spec: the error taxonomy of cycle-aborting
failures (a rejected filtered query is handled inside the Remote
Fetcher and never aborts a cycle). -/
inductive SyncError where
  | transport
  | timeout
  | persistence
deriving DecidableEq, Repr

/-- Modelled from the spec: the Remote Fetcher's result as seen by the
orchestrator — either a record set with the `usedFilteredQuery` flag,
or a clean failure signal. -/
inductive FetchResult where
  | ok (records : List Record) (usedFilteredQuery : Bool)
  | err (e : SyncError)

/-- Modelled from the spec: the state owned by one collection's sync —
the local cache and the collection's SyncMetadata entry (the instant
of the last successful sync, absent before the first one). -/
structure SyncStore where
  cache : List Record
  meta : Option Nat
deriving DecidableEq, Repr

/-- Terminal state of one sync cycle. -/
inductive CycleOutcome where
  | done
  | failed (e : SyncError)
deriving DecidableEq, Repr

/-- Modelled from the spec: one sync cycle of the Sync Orchestrator
(`Idle → Fetching → Merging → Persisting → Done`, with `Failed`
reachable from any step). The remote fetch and the persistence write
are the cycle's two fallible suspension points, injected as `fetch`
and `persistOk`; `now` is the cycle's start instant. On success the
merged set becomes the new cache and SyncMetadata advances to `now`;
on any failure the prior store is returned untouched. -/
def runSyncCycle (now : Nat) (fetch : Option Nat → FetchResult)
    (persistOk : Bool) (st : SyncStore) : SyncStore × CycleOutcome :=
  match fetch st.meta with
  | .err e => (st, .failed e)
  | .ok remote _ =>
    if persistOk then
      ({ cache := mergeDatasets st.cache remote, meta := some now }, .done)
    else
      (st, .failed .persistence)

/-- C5: a sync cycle is atomic with respect to failure — every cycle
that ends `failed` (including a persistence failure) leaves the local
cache and the SyncMetadata entry exactly equal to their pre-cycle
values, and SyncMetadata moves only on a cycle that persisted
successfully and ended `done`, in which case it is set to the cycle
start instant. -/
theorem sync_cycle_failure_atomic (now : Nat) (fetch : Option Nat → FetchResult)
    (persistOk : Bool) (st : SyncStore) :
    (∀ e, (runSyncCycle now fetch persistOk st).2 = .failed e →
      (runSyncCycle now fetch persistOk st).1 = st) ∧
    ((runSyncCycle now fetch persistOk st).1.meta ≠ st.meta →
      persistOk = true ∧ (runSyncCycle now fetch persistOk st).2 = .done ∧
        (runSyncCycle now fetch persistOk st).1.meta = some now) := by
  unfold runSyncCycle
  cases fetch st.meta with
  | err e => simp
  | ok remote uf =>
    by_cases hp : persistOk <;> simp [hp]

/-- Witness for C5: a persistence failure during `Persisting` leaves a
concrete pre-cycle store untouched. -/
theorem sync_cycle_failure_atomic_witness :
    (runSyncCycle 9 (fun _ => FetchResult.ok [rRemote] true) false
      { cache := [rLocal], meta := some 2 }).1 =
      { cache := [rLocal], meta := some 2 } :=
  (sync_cycle_failure_atomic 9 (fun _ => FetchResult.ok [rRemote] true) false
    { cache := [rLocal], meta := some 2 }).1 SyncError.persistence rfl

end SmartSync

namespace DutyTracker

/-! ## The DutyFirebaseService data-access layer (from the source)

The methods of `DutyFirebaseService` are translated directly from the
JavaScript. A Firestore document is a key plus a field object; field
values here are the strings and date-millisecond numbers the service
reads and writes. The `try`/`catch` around every query is modelled by
an explicit `ok` flag: `ok = true` is the path where the awaited query
resolved, `ok = false` the path where it threw and the `catch` block
ran. Firestore's documented query semantics are made explicit: a
`where` filter or an `orderBy` clause on a field only matches
documents that contain that field. -/

/-- A JavaScript value as used by the service: strings and dates
(milliseconds since the epoch). -/
inductive JsVal where
  | str (s : String)
  | num (n : Nat)
deriving DecidableEq, Repr

/-- A JavaScript object, as an ordered list of key-value properties. -/
abbrev JsObj := List (String × JsVal)

/-- Property access: the first property with the given key. -/
def objLookup : JsObj → String → Option JsVal
  | [], _ => none
  | (k', v) :: rest, k => if k' = k then some v else objLookup rest k

/-- Setting one property of an object literal: replaces an existing
property in place, appends otherwise — JavaScript object semantics. -/
def objInsert (o : JsObj) (k : String) (v : JsVal) : JsObj :=
  match objLookup o k with
  | some _ => o.map (fun p => if p.1 = k then (k, v) else p)
  | none => o ++ [(k, v)]

/-- The object-spread `{ ...base-properties, ...src }`: every property
of `src` is written over `base`, later properties overriding earlier
ones — so a key present in `src` wins over the same key in `base`. -/
def objSpread (base src : JsObj) : JsObj :=
  src.foldl (fun acc p => objInsert acc p.1 p.2) base

/-- A Firestore document: its key (`doc.id` in the JS client) and its
data (`doc.data()`). -/
structure Doc where
  key : String
  fields : JsObj
deriving DecidableEq, Repr

/-- Firestore `where('updatedAt', '>', date)` predicate: matches
exactly the documents whose `updatedAt` field exists, is a
timestamp, and is strictly later than `since`. -/
def updatedAtAfter (since : Nat) (d : Doc) : Bool :=
  match objLookup d.fields "updatedAt" with
  | some (JsVal.num t) => decide (since < t)
  | _ => false

/-- Firestore's value ordering, restricted to the value types the
service stores (numbers sort before strings). -/
def jsLe : JsVal → JsVal → Bool
  | JsVal.num a, JsVal.num b => decide (a ≤ b)
  | JsVal.num _, JsVal.str _ => true
  | JsVal.str _, JsVal.num _ => false
  | JsVal.str a, JsVal.str b => decide (a ≤ b)

/-- The `timeIn` field of a document. -/
def timeIn (d : Doc) : Option JsVal :=
  objLookup d.fields "timeIn"

/-- Descending comparison on the `timeIn` field, as the Boolean test
used to order a query result. -/
def timeInDescLe (d1 d2 : Doc) : Bool :=
  jsLe ((timeIn d2).getD (JsVal.num 0)) ((timeIn d1).getD (JsVal.num 0))

/-- `d1` precedes `d2` in `orderBy('timeIn', 'desc')` order. -/
def TimeInGe (d1 d2 : Doc) : Prop :=
  timeInDescLe d1 d2 = true

instance : DecidableRel TimeInGe := fun d1 d2 => by
  unfold TimeInGe
  infer_instance

theorem jsLe_total (a b : JsVal) : jsLe a b = true ∨ jsLe b a = true := by
  cases a with
  | str s =>
    cases b with
    | str s' =>
      simp only [jsLe, decide_eq_true_eq]
      exact le_total s s'
    | num n => simp [jsLe]
  | num n =>
    cases b with
    | str s => simp [jsLe]
    | num n' =>
      simp only [jsLe, decide_eq_true_eq]
      exact Nat.le_total n n'

theorem jsLe_trans {a b c : JsVal} (hab : jsLe a b = true)
    (hbc : jsLe b c = true) : jsLe a c = true := by
  cases a <;> cases b <;> cases c <;>
    simp_all only [jsLe, decide_eq_true_eq] <;>
    first
      | exact le_trans hab hbc
      | simp at hab
      | simp at hbc

instance : IsTotal Doc TimeInGe where
  total d1 d2 := by
    unfold TimeInGe timeInDescLe
    exact (jsLe_total _ _).symm

instance : IsTrans Doc TimeInGe where
  trans d1 d2 d3 h12 h23 := by
    unfold TimeInGe timeInDescLe at h12 h23 ⊢
    exact jsLe_trans h23 h12

/-- Firestore `orderBy('timeIn', 'desc').get()`: the documents that
carry a `timeIn` field, sorted by it in descending order. -/
def orderByTimeInDesc (db : List Doc) : List Doc :=
  List.insertionSort TimeInGe (db.filter (fun d => (timeIn d).isSome))

/-- The record `getLogs` builds for one document:
`{ id: doc.id, ...doc.data() }` — note the spread comes second, so a
document whose data carries its own `id` property overrides the key. -/
def mkLogRec (d : Doc) : JsObj :=
  objSpread [("id", JsVal.str d.key)] d.fields

/-- `DutyFirebaseService.getLogs`: order the logs collection by
`timeIn` descending and collect `{ id: doc.id, ...doc.data() }`; if
the awaited query throws, log and return `[]`. -/
def getLogs (db : List Doc) (ok : Bool) : List JsObj :=
  if ok then (orderByTimeInDesc db).map mkLogRec else []

/-- The record `getDutyLogsSince` builds for one document:
`{ firebaseId: doc.id, ...doc.data() }`. -/
def mkDutyRec (d : Doc) : JsObj :=
  objSpread [("firebaseId", JsVal.str d.key)] d.fields

/-- `DutyFirebaseService.getDutyLogsSince`: build
`new Date(lastSyncTimestamp || 0)` and run the single query
`where('updatedAt', '>', date)`; if the awaited query throws, log and
return `[]`. There is no separate full-fetch path and no fallback
query. -/
def getDutyLogsSince (db : List Doc) (ok : Bool)
    (lastSyncTimestamp : Option Nat) : List JsObj :=
  if ok then
    (db.filter (updatedAtAfter (lastSyncTimestamp.getD 0))).map mkDutyRec
  else []

/-! ## Object-spread lemmas -/

theorem objLookup_eq_none_iff {o : JsObj} {k : String} :
    objLookup o k = none ↔ k ∉ o.map Prod.fst := by
  induction o with
  | nil => simp [objLookup]
  | cons p rest ih =>
    by_cases hp : p.1 = k
    · simp [objLookup, hp]
    · simp [objLookup, hp, Ne.symm hp, ih]

theorem objLookup_append (o1 o2 : JsObj) (k : String) :
    objLookup (o1 ++ o2) k =
      match objLookup o1 k with
      | some v => some v
      | none => objLookup o2 k := by
  induction o1 with
  | nil => simp [objLookup]
  | cons p rest ih =>
    by_cases hp : p.1 = k
    · simp [objLookup, hp]
    · simpa [objLookup, hp] using ih

theorem objLookup_mapReplace (o : JsObj) (k : String) (v : JsVal) (k' : String) :
    objLookup (o.map (fun p => if p.1 = k then (k, v) else p)) k' =
      if k = k' then (objLookup o k).map (fun _ => v) else objLookup o k' := by
  induction o with
  | nil => simp [objLookup]
  | cons p rest ih =>
    obtain ⟨pk, pv⟩ := p
    rw [List.map_cons]
    by_cases hp : pk = k
    · have hf : (if (pk, pv).1 = k then (k, v) else (pk, pv)) = (k, v) := by
        simp [hp]
      rw [hf]
      by_cases hk : k = k'
      · subst hk
        simp [objLookup, hp]
      · simp [objLookup, hk, hp, ih]
    · have hf : (if (pk, pv).1 = k then (k, v) else (pk, pv)) = (pk, pv) := by
        simp [hp]
      rw [hf]
      by_cases hk : k = k'
      · subst hk
        simp [objLookup, hp, ih]
      · by_cases hpk : pk = k'
        · simp [objLookup, hp, hk, hpk]
        · simp [objLookup, hp, hk, hpk, ih]

theorem objLookup_objInsert (o : JsObj) (k : String) (v : JsVal) (k' : String) :
    objLookup (objInsert o k v) k' =
      if k = k' then some v else objLookup o k' := by
  unfold objInsert
  cases h : objLookup o k with
  | none =>
    rw [objLookup_append]
    by_cases hk : k = k'
    · subst hk
      rw [h]
      simp [objLookup]
    · cases h2 : objLookup o k' with
      | none => simp [objLookup, hk, Ne.symm hk]
      | some w => simp [hk]
  | some w =>
    rw [objLookup_mapReplace]
    by_cases hk : k = k'
    · subst hk; rw [h]; simp
    · simp [hk]

theorem objLookup_objSpread (src : JsObj) :
    ∀ (base : JsObj) (k : String), (src.map Prod.fst).Nodup →
      objLookup (objSpread base src) k =
        match objLookup src k with
        | some v => some v
        | none => objLookup base k := by
  induction src with
  | nil => intro base k _; simp [objSpread, objLookup]
  | cons p rest ih =>
    intro base k hnd
    rw [List.map_cons] at hnd
    obtain ⟨hm, hnd'⟩ := List.nodup_cons.mp hnd
    show objLookup (objSpread (objInsert base p.1 p.2) rest) k = _
    rw [ih _ k hnd']
    by_cases hp : p.1 = k
    · have hrest : objLookup rest k = none :=
        objLookup_eq_none_iff.mpr (by rw [← hp]; exact hm)
      rw [hrest]
      have hhead : objLookup (p :: rest) k = some p.2 := by
        simp [objLookup, hp]
      rw [hhead, objLookup_objInsert, if_pos hp]
    · have hhead : objLookup (p :: rest) k = objLookup rest k := by
        simp [objLookup, hp]
      rw [hhead, objLookup_objInsert, if_neg hp]

theorem objLookup_mkLogRec (d : Doc)
    (hnd : (d.fields.map Prod.fst).Nodup) (k : String) :
    objLookup (mkLogRec d) k =
      match objLookup d.fields k with
      | some v => some v
      | none => objLookup [("id", JsVal.str d.key)] k := by
  exact objLookup_objSpread d.fields [("id", JsVal.str d.key)] k hnd

theorem mkLogRec_timeIn (d : Doc)
    (hnd : (d.fields.map Prod.fst).Nodup) :
    objLookup (mkLogRec d) "timeIn" = timeIn d := by
  rw [objLookup_mkLogRec d hnd]
  unfold timeIn
  cases objLookup d.fields "timeIn" with
  | none => simp [objLookup]
  | some v => rfl

theorem mkLogRec_id (d : Doc)
    (hnd : (d.fields.map Prod.fst).Nodup) :
    objLookup (mkLogRec d) "id" =
      some ((objLookup d.fields "id").getD (JsVal.str d.key)) := by
  rw [objLookup_mkLogRec d hnd]
  cases objLookup d.fields "id" with
  | none => simp [objLookup]
  | some v => rfl

/-! ## The fetch-since query (C6, C7, C8) -/

/-- Counterexample to C6: with `since` absent, `getDutyLogsSince` does
not fetch the entire collection — a document without an `updatedAt`
field is silently excluded, because the epoch-based filtered query
`where('updatedAt', '>', new Date(0))` only matches documents carrying
that field. -/
theorem getDutyLogsSince_full_fetch_cex :
    getDutyLogsSince [Doc.mk "a" [("x", JsVal.str "v")]] true none = [] ∧
      [Doc.mk "a" [("x", JsVal.str "v")]] ≠ ([] : List Doc) := by
  decide

/-- C6 (amended): with `since` absent, `getDutyLogsSince` substitutes
the epoch (`lastSyncTimestamp || 0`) and still runs the single
filtered query: it returns exactly the records whose `updatedAt` field
is a timestamp strictly later than the epoch; a document without an
`updatedAt` field never passes the filter, and every document with a
positive `updatedAt` timestamp is returned. -/
theorem getDutyLogsSince_no_since (db : List Doc) :
    getDutyLogsSince db true none =
      (db.filter (updatedAtAfter 0)).map mkDutyRec ∧
    (∀ d ∈ db, objLookup d.fields "updatedAt" = none →
      updatedAtAfter 0 d = false ∧ d ∉ db.filter (updatedAtAfter 0)) ∧
    (∀ d ∈ db, ∀ t, objLookup d.fields "updatedAt" = some (JsVal.num t) →
      0 < t → mkDutyRec d ∈ getDutyLogsSince db true none) := by
  refine ⟨rfl, ?_, ?_⟩
  · intro d _ h
    have hf : updatedAtAfter 0 d = false := by
      unfold updatedAtAfter
      rw [h]
    refine ⟨hf, ?_⟩
    intro hmem
    rw [List.mem_filter, hf] at hmem
    exact Bool.false_ne_true hmem.2
  · intro d hd t h ht
    have hf : updatedAtAfter 0 d = true := by
      unfold updatedAtAfter
      rw [h]
      simpa using ht
    show mkDutyRec d ∈ (db.filter (updatedAtAfter 0)).map mkDutyRec
    exact List.mem_map_of_mem mkDutyRec (List.mem_filter.mpr ⟨hd, hf⟩)

/-- Witness for C6 (amended) on a concrete collection. -/
theorem getDutyLogsSince_no_since_witness :
    mkDutyRec (Doc.mk "b" [("updatedAt", JsVal.num 7)]) ∈
      getDutyLogsSince [Doc.mk "b" [("updatedAt", JsVal.num 7)]] true none :=
  (getDutyLogsSince_no_since [Doc.mk "b" [("updatedAt", JsVal.num 7)]]).2.2
    (Doc.mk "b" [("updatedAt", JsVal.num 7)]) (by simp) 7 (by decide) (by decide)

/-- Counterexample to C7, in both respects. First, when the query
throws there is no fallback full fetch: on a non-empty collection the
failing call returns `[]`, not the collection (and the return type
carries no `usedFilteredQuery` flag at all). Second, the filter is
strict (`>`): a record with `updatedAt` exactly equal to `since` is
not returned, whereas the claim's filter is "later than or equal". -/
theorem getDutyLogsSince_fallback_cex :
    (getDutyLogsSince [Doc.mk "a" [("updatedAt", JsVal.num 5)]] false (some 1) = [] ∧
      [Doc.mk "a" [("updatedAt", JsVal.num 5)]].map mkDutyRec ≠ []) ∧
    getDutyLogsSince [Doc.mk "a" [("updatedAt", JsVal.num 5)]] true (some 5) = [] := by
  decide

/-- C7 (amended): with `since` present, `getDutyLogsSince` runs the
single server-side filter "`updatedAt` strictly later than `since`"
(boundary excluded); if the query throws for any reason there is no
fallback full fetch and no `usedFilteredQuery` signal — the caller
just receives the empty list, and the failure is not surfaced. -/
theorem getDutyLogsSince_with_since (db : List Doc) (t : Nat) :
    getDutyLogsSince db true (some t) =
      (db.filter (updatedAtAfter t)).map mkDutyRec ∧
    (∀ d : Doc, objLookup d.fields "updatedAt" = some (JsVal.num t) →
      updatedAtAfter t d = false) ∧
    getDutyLogsSince db false (some t) = [] := by
  refine ⟨rfl, ?_, rfl⟩
  intro d h
  unfold updatedAtAfter
  rw [h]
  simp

/-- Witness for C7 (amended): a record timestamped exactly at `since`
fails the strict filter. -/
theorem getDutyLogsSince_with_since_witness :
    updatedAtAfter 5 (Doc.mk "a" [("updatedAt", JsVal.num 5)]) = false :=
  (getDutyLogsSince_with_since [Doc.mk "a" [("updatedAt", JsVal.num 5)]] 5).2.1
    (Doc.mk "a" [("updatedAt", JsVal.num 5)]) (by decide)

/-- Counterexample to C8: a transport failure on a non-empty
collection produces output identical to a successful fetch of an
empty collection — the caller receives no error signal that could
distinguish the two, contrary to the claim. -/
theorem getDutyLogsSince_error_signal_cex :
    getDutyLogsSince [Doc.mk "c" [("updatedAt", JsVal.num 9)]] false (some 2) =
      getDutyLogsSince ([] : List Doc) true (some 2) := by
  decide

/-- C8 (amended): every failure inside `getDutyLogsSince` is caught at
the method boundary — nothing propagates to the caller — but it is
reported as a bare empty record set with no accompanying error signal,
indistinguishable from a successful fetch of an empty collection. -/
theorem getDutyLogsSince_failure_empty (db : List Doc) (since : Option Nat) :
    getDutyLogsSince db false since = [] ∧
    getDutyLogsSince db false since = getDutyLogsSince [] true since := by
  exact ⟨rfl, rfl⟩

/-! ## getLogs (C9) -/

/-- Counterexample to C9: `getLogs` builds `{ id: doc.id, ...doc.data() }`,
so a document whose data carries its own `id` field does not receive
the document key as its `id` — the spread overrides it. -/
theorem getLogs_doc_key_cex :
    getLogs [Doc.mk "k" [("id", JsVal.str "other"), ("timeIn", JsVal.num 1)]] true =
      [[("id", JsVal.str "other"), ("timeIn", JsVal.num 1)]] ∧
    objLookup [("id", JsVal.str "other"), ("timeIn", JsVal.num 1)] "id" ≠
      some (JsVal.str "k") := by
  decide

/-- C9 (amended): `getLogs` never raises: on failure it returns `[]`
(indistinguishable from an empty collection); on success it returns
one record per document carrying a `timeIn` field, ordered by `timeIn`
descending, each built as `{ id: doc.id }` overridden by the
document's own fields — so a record's `id` is the document key only
when the document data carries no `id` field of its own, and otherwise
the data's `id` value. -/
theorem getLogs_spec (db : List Doc)
    (hnd : ∀ d ∈ db, (d.fields.map Prod.fst).Nodup) :
    getLogs db false = [] ∧
    List.Pairwise (fun a b : JsObj =>
      jsLe ((objLookup b "timeIn").getD (JsVal.num 0))
        ((objLookup a "timeIn").getD (JsVal.num 0)) = true) (getLogs db true) ∧
    (∀ rec ∈ getLogs db true, ∃ d, d ∈ db ∧ (timeIn d).isSome ∧
      rec = mkLogRec d ∧
      objLookup rec "id" = some ((objLookup d.fields "id").getD (JsVal.str d.key))) ∧
    (∀ d ∈ db, (timeIn d).isSome → mkLogRec d ∈ getLogs db true) := by
  have hmemsort : ∀ d : Doc, d ∈ orderByTimeInDesc db ↔
      d ∈ db ∧ (timeIn d).isSome := by
    intro d
    unfold orderByTimeInDesc
    rw [List.mem_insertionSort, List.mem_filter]
  refine ⟨rfl, ?_, ?_, ?_⟩
  · show List.Pairwise _ ((orderByTimeInDesc db).map mkLogRec)
    rw [List.pairwise_map]
    have hsorted : List.Pairwise TimeInGe (orderByTimeInDesc db) :=
      List.sorted_insertionSort TimeInGe _
    refine List.Pairwise.imp_of_mem ?_ hsorted
    intro d1 d2 h1 h2 hr
    have hnd1 := hnd d1 ((hmemsort d1).mp h1).1
    have hnd2 := hnd d2 ((hmemsort d2).mp h2).1
    rw [mkLogRec_timeIn d1 hnd1, mkLogRec_timeIn d2 hnd2]
    exact hr
  · intro rec hrec
    obtain ⟨d, hd, hrd⟩ := List.mem_map.mp hrec
    obtain ⟨hdb, hts⟩ := (hmemsort d).mp hd
    exact ⟨d, hdb, hts, hrd.symm,
      by rw [← hrd]; exact mkLogRec_id d (hnd d hdb)⟩
  · intro d hd hts
    exact List.mem_map_of_mem mkLogRec ((hmemsort d).mpr ⟨hd, hts⟩)

/-- Witness for C9 (amended) on a concrete collection. -/
theorem getLogs_spec_witness :
    mkLogRec (Doc.mk "L" [("timeIn", JsVal.num 2)]) ∈
      getLogs [Doc.mk "L" [("timeIn", JsVal.num 2)]] true :=
  (getLogs_spec [Doc.mk "L" [("timeIn", JsVal.num 2)]] (by decide)).2.2.2
    (Doc.mk "L" [("timeIn", JsVal.num 2)]) (by simp) (by decide)

/-! ## addOfficer (C10) -/

/-- First document with the given key in a collection. -/
def dbGet : List Doc → String → Option Doc
  | [], _ => none
  | d :: rest, k => if d.key = k then some d else dbGet rest k

/-- Firestore `.doc(k).set(v)`: replace the document at key `k` in
place, creating it if absent — set semantics, not add. -/
def dbSet (db : List Doc) (k : String) (v : JsObj) : List Doc :=
  match dbGet db k with
  | some _ => db.map (fun d => if d.key = k then ⟨k, v⟩ else d)
  | none => db ++ [⟨k, v⟩]

/-- The argument object `addOfficer` receives. -/
structure OfficerData where
  studentId : String
  studentName : String
  sectionName : String

/-- The `dataToSave` object `addOfficer` builds at instant `now`:
`officerId`, `id` and `uniqueId` all copy `studentId`, `section` is
stored as `department`, and both `createdAt` and `updatedAt` are set
to the current instant. -/
def addOfficerDoc (now : Nat) (od : OfficerData) : JsObj :=
  [("officerId", JsVal.str od.studentId),
   ("officerName", JsVal.str od.studentName),
   ("department", JsVal.str od.sectionName),
   ("id", JsVal.str od.studentId),
   ("uniqueId", JsVal.str od.studentId),
   ("createdAt", JsVal.num now),
   ("updatedAt", JsVal.num now)]

/-- `DutyFirebaseService.addOfficer` (success path): write the officer
document under the document key `officerData.studentId` with `set`,
and return that `studentId`. -/
def addOfficer (now : Nat) (db : List Doc) (od : OfficerData) :
    List Doc × String :=
  (dbSet db od.studentId (addOfficerDoc now od), od.studentId)

theorem dbGet_eq_none_iff {db : List Doc} {k : String} :
    dbGet db k = none ↔ k ∉ db.map Doc.key := by
  induction db with
  | nil => simp [dbGet]
  | cons d rest ih =>
    by_cases hd : d.key = k
    · simp [dbGet, hd]
    · simp [dbGet, hd, Ne.symm hd, ih]

theorem dbGet_append_right {db : List Doc} {k : String}
    (h : dbGet db k = none) (d : Doc) :
    dbGet (db ++ [d]) k = if d.key = k then some d else none := by
  induction db with
  | nil => simp [dbGet]
  | cons x rest ih =>
    by_cases hx : x.key = k
    · simp [dbGet, hx] at h
    · simp only [dbGet, hx, if_false, List.cons_append] at h ⊢
      exact ih h

theorem dbGet_mapReplace (db : List Doc) (k : String) (v : JsObj) :
    dbGet (db.map (fun d => if d.key = k then ⟨k, v⟩ else d)) k =
      (dbGet db k).map (fun _ => Doc.mk k v) := by
  induction db with
  | nil => simp [dbGet]
  | cons d rest ih =>
    by_cases hd : d.key = k
    · have hf : (if d.key = k then Doc.mk k v else d) = Doc.mk k v := if_pos hd
      rw [List.map_cons, hf]
      simp [dbGet, hd]
    · have hf : (if d.key = k then Doc.mk k v else d) = d := if_neg hd
      rw [List.map_cons, hf]
      simp [dbGet, hd, ih]

theorem dbGet_dbSet_same (db : List Doc) (k : String) (v : JsObj) :
    dbGet (dbSet db k v) k = some (Doc.mk k v) := by
  unfold dbSet
  cases h : dbGet db k with
  | none =>
    rw [dbGet_append_right h]
    simp
  | some d =>
    rw [dbGet_mapReplace, h]
    rfl

theorem dbKeys_mapReplace (db : List Doc) (k : String) (v : JsObj) :
    (db.map (fun d => if d.key = k then Doc.mk k v else d)).map Doc.key
      = db.map Doc.key := by
  rw [List.map_map]
  apply List.map_congr_left
  intro d _
  by_cases hd : d.key = k
  · simp [Function.comp, hd]
  · simp [Function.comp, hd]

theorem dbKeys_nodup_dbSet (db : List Doc) (k : String) (v : JsObj)
    (hnd : (db.map Doc.key).Nodup) :
    ((dbSet db k v).map Doc.key).Nodup := by
  unfold dbSet
  cases h : dbGet db k with
  | none =>
    have hk : k ∉ db.map Doc.key := dbGet_eq_none_iff.mp h
    simp [List.nodup_append, hnd, hk]
  | some d =>
    rw [dbKeys_mapReplace]
    exact hnd

theorem filter_key_nil {db : List Doc} {k : String}
    (h : k ∉ db.map Doc.key) :
    db.filter (fun d => d.key = k) = [] := by
  rw [List.filter_eq_nil_iff]
  intro d hd
  simp only [decide_eq_true_eq]
  intro he
  exact h (he ▸ List.mem_map_of_mem Doc.key hd)

theorem count_dbSet (db : List Doc) (k : String) (v : JsObj)
    (hnd : (db.map Doc.key).Nodup) :
    ((dbSet db k v).filter (fun d => d.key = k)).length = 1 := by
  unfold dbSet
  cases h : dbGet db k with
  | none =>
    have hk : k ∉ db.map Doc.key := dbGet_eq_none_iff.mp h
    rw [List.filter_append, filter_key_nil hk]
    simp
  | some d0 =>
    have hk : k ∈ db.map Doc.key := by
      by_contra hc
      rw [dbGet_eq_none_iff.mpr hc] at h
      exact Option.noConfusion h
    clear h
    induction db with
    | nil => simp at hk
    | cons x rest ih =>
      rw [List.map_cons, List.nodup_cons] at hnd
      by_cases hx : x.key = k
      · have hf : (if x.key = k then Doc.mk k v else x) = Doc.mk k v := if_pos hx
        rw [List.map_cons, hf]
        have hrest : k ∉ rest.map Doc.key := hx ▸ hnd.1
        have hnone : ∀ d ∈ rest.map (fun d => if d.key = k then Doc.mk k v else d),
            ¬ (d.key = k) := by
          intro d hd
          obtain ⟨d0', hd0', hdd⟩ := List.mem_map.mp hd
          have hne : d0'.key ≠ k := by
            intro he
            exact hrest (he ▸ List.mem_map_of_mem Doc.key hd0')
          rw [← hdd, if_neg hne]
          exact hne
        have hfe : (rest.map (fun d => if d.key = k then Doc.mk k v else d)).filter
            (fun d => d.key = k) = [] := by
          rw [List.filter_eq_nil_iff]
          intro d hd
          simpa using hnone d hd
        simp [List.filter_cons, hfe]
      · have hf : (if x.key = k then Doc.mk k v else x) = x := if_neg hx
        rw [List.map_cons, hf]
        have hk' : k ∈ rest.map Doc.key := by
          rcases List.mem_cons.mp hk with h | h
          · exact absurd h.symm hx
          · exact h
        rw [List.filter_cons, if_neg (by simpa using hx)]
        exact ih hnd.2 hk'

/-- C10: `addOfficer` stores the officer document under the key
`officerData.studentId` with replace-on-existing `set` semantics:
calling it twice with the same `studentId` leaves exactly one document
with that key; each call returns the `studentId` it was given; and the
stored document's `officerId`, `id` and `uniqueId` fields all equal
that `studentId`. -/
theorem addOfficer_spec (now1 now2 : Nat) (db : List Doc) (od : OfficerData)
    (hnd : (db.map Doc.key).Nodup) :
    (addOfficer now1 db od).2 = od.studentId ∧
    (addOfficer now2 (addOfficer now1 db od).1 od).2 = od.studentId ∧
    (((addOfficer now2 (addOfficer now1 db od).1 od).1.filter
        (fun d => d.key = od.studentId)).length = 1) ∧
    (∃ d, dbGet (addOfficer now2 (addOfficer now1 db od).1 od).1 od.studentId
        = some d ∧
      objLookup d.fields "officerId" = some (JsVal.str od.studentId) ∧
      objLookup d.fields "id" = some (JsVal.str od.studentId) ∧
      objLookup d.fields "uniqueId" = some (JsVal.str od.studentId)) := by
  refine ⟨rfl, rfl, ?_, ?_⟩
  · exact count_dbSet _ od.studentId _
      (dbKeys_nodup_dbSet db od.studentId _ hnd)
  · refine ⟨Doc.mk od.studentId (addOfficerDoc now2 od),
      dbGet_dbSet_same _ od.studentId _, ?_, ?_, ?_⟩ <;>
      simp [addOfficerDoc, objLookup]

/-- Witness for C10 on a concrete store. -/
theorem addOfficer_spec_witness :
    (addOfficer 1 [] (OfficerData.mk "S1" "Alice" "A")).2 = "S1" ∧
    (addOfficer 2 (addOfficer 1 [] (OfficerData.mk "S1" "Alice" "A")).1
      (OfficerData.mk "S1" "Alice" "A")).2 = "S1" ∧
    (((addOfficer 2 (addOfficer 1 [] (OfficerData.mk "S1" "Alice" "A")).1
        (OfficerData.mk "S1" "Alice" "A")).1.filter
          (fun d => d.key = "S1")).length = 1) ∧
    (∃ d, dbGet (addOfficer 2 (addOfficer 1 [] (OfficerData.mk "S1" "Alice" "A")).1
        (OfficerData.mk "S1" "Alice" "A")).1 "S1" = some d ∧
      objLookup d.fields "officerId" = some (JsVal.str "S1") ∧
      objLookup d.fields "id" = some (JsVal.str "S1") ∧
      objLookup d.fields "uniqueId" = some (JsVal.str "S1")) :=
  addOfficer_spec 1 2 [] (OfficerData.mk "S1" "Alice" "A") (by decide)

end DutyTracker
